import Mathlib

/-!
Verification of a dense active-set QP solver core against its
natural-language specification.  The solver minimises ½xᵀQx + pᵀx subject
to Gx ≤ h and Ax = b.  The notebook in the repository delegates the solving
to an external library, so the solver core itself is modelled from the
specification: exact rational arithmetic stands in for floating point,
linear systems are solved by Gaussian elimination, and the active-set
loop follows the steps given in the specification: KKT system, multiplier
check, constraint addition, constraint removal, iteration cap.
-/

attribute [local semireducible] Rat.add Rat.mul Rat.inv Rat.sub

namespace QP

abbrev Vec := List ℚ

abbrev Mat := List (List ℚ)

/-- Dot product of two vectors (a LinearAlgebra collaborator primitive). -/
def dot (v w : Vec) : ℚ := (List.zipWith (fun a b => a * b) v w).sum

/-- Componentwise difference of two vectors. -/
def subV (v w : Vec) : Vec := List.zipWith (fun a b => a - b) v w

/-- Scalar multiple of a vector. -/
def smulV (c : ℚ) (v : Vec) : Vec := v.map (fun a => c * a)

/-- Componentwise negation of a vector. -/
def negV (v : Vec) : Vec := v.map (fun a => -a)

/-- Matrix–vector product (a LinearAlgebra collaborator primitive). -/
def matVec (M : Mat) (v : Vec) : Vec := M.map (fun r => dot r v)

/-- Select the first row of an augmented system whose leading coefficient
is nonzero, returning it together with the remaining rows. -/
def pickPivot : List Vec → Option (Vec × List Vec)
  | [] => none
  | r :: rs =>
    if r.headI ≠ 0 then some (r, rs)
    else
      match pickPivot rs with
      | some (pr, rest) => some (pr, r :: rest)
      | none => none

/-- Eliminate the leading coefficient of row `r` using pivot row `pv`,
dropping the leading column. -/
def elimRow (pv r : Vec) : Vec :=
  (List.zipWith (fun a b => a - (r.headI / pv.headI) * b) r pv).tail

/-- Modelled from the spec: the `factorizeAndSolve` operation of the
LinearAlgebra collaborator (dense linear solve, `SingularMatrixError` as
`none`).
Solves an augmented system (each row is the coefficients followed by the
right-hand side) in `n` unknowns by Gaussian elimination with exact
rational arithmetic; `none` reports a singular or inconsistent system. -/
def solveLin : Nat → List Vec → Option Vec
  | 0, rows => if rows.all (fun r => r.headI = 0) then some [] else none
  | n+1, rows =>
    match pickPivot rows with
    | none => none
    | some (pr, rest) =>
      match solveLin n (rest.map (elimRow pr)) with
      | none => none
      | some xs =>
        some (((pr.tail.getLastD 0 - dot pr.tail.dropLast xs) / pr.headI) :: xs)

/-- Column `i` of the matrix whose rows are `N`. -/
def colOf (N : Mat) (i : Nat) : Vec := N.map (fun r => r.getD i 0)

/-- Augmented rows of the KKT-style system `[Q Nᵀ; N 0] y = [rhs; 0]`. -/
def kktRows (Q N : Mat) (rhs : Vec) : List Vec :=
  (List.range Q.length).map
    (fun i => Q.getD i [] ++ colOf N i ++ [rhs.getD i 0])
  ++ N.map (fun r => r ++ List.replicate N.length 0 ++ [(0 : ℚ)])

/-- Solve the KKT-style direction system for current active rows `N` and
new row `n0`, returning the primal direction and the multiplier rates. -/
def solveDir (Q N : Mat) (n0 : Vec) : Option (Vec × Vec) :=
  match solveLin (Q.length + N.length) (kktRows Q N n0) with
  | none => none
  | some sol => some (sol.take Q.length, sol.drop Q.length)

/-- Modelled from the spec: the validated in-memory `Problem`
representation of (Q, p, G, h, A, b). -/
structure Problem where
  Q : Mat
  pv : Vec
  G : Mat
  h : Vec
  A : Mat
  bv : Vec
deriving DecidableEq

/-- Number of variables `n`. -/
def nVars (P : Problem) : Nat := P.pv.length

/-- Number of inequality rows `m`. -/
def mIneq (P : Problem) : Nat := P.G.length

/-- Number of equality rows `p`. -/
def pEq (P : Problem) : Nat := P.A.length

/-- Stacked constraint matrix: equality rows first, then inequality rows. -/
def rowsC (P : Problem) : Mat := P.A ++ P.G

/-- Stacked right-hand sides, matching `rowsC`. -/
def rhsD (P : Problem) : Vec := P.bv ++ P.h

/-- Terminal status of a solve, as required by the specification. -/
inductive Status
  | Optimal
  | Infeasible
  | Unbounded
  | IterationLimitExceeded
deriving DecidableEq

/-- Modelled from the spec: the `Result` record packaged by the
ResultReporter (status, x* iff optimal, objective, multipliers,
iteration count). -/
structure Result where
  status : Status
  xstar : Option Vec
  objective : Option ℚ
  lamMult : Vec
  nuMult : Vec
  iterations : Nat
deriving DecidableEq

/-- Modelled from the spec: the solver `Iterate` together with its working
set.  `act` lists the active stacked constraint rows with their current
multipliers (equality rows live at indices `< pEq`); `pending` records an
inequality row in the process of being added, with its partial multiplier. -/
structure QPState where
  x : Vec
  act : List (Nat × ℚ)
  pending : Option (Nat × ℚ)
  iter : Nat
deriving DecidableEq

/-- Multiplier stored for stacked row `i`, or `0` when `i` is inactive. -/
def lookupMult (i : Nat) : List (Nat × ℚ) → ℚ
  | [] => 0
  | e :: rest => if e.1 = i then e.2 else lookupMult i rest

/-- Objective value ½xᵀQx + pᵀx. -/
def objectiveAt (P : Problem) (x : Vec) : ℚ :=
  dot x (matVec P.Q x) / 2 + dot P.pv x

/-- The `Result` returned on the Optimal termination path. -/
def optimalResult (P : Problem) (s : QPState) : Result :=
  { status := .Optimal
    xstar := some s.x
    objective := some (objectiveAt P s.x)
    lamMult := (List.range (mIneq P)).map (fun i => lookupMult (pEq P + i) s.act)
    nuMult := (List.range (pEq P)).map (fun i => lookupMult i s.act)
    iterations := s.iter }

/-- The `Result` returned on a non-optimal termination path. -/
def failResult (st : Status) (iter : Nat) : Result :=
  { status := st, xstar := none, objective := none, lamMult := [], nuMult := [],
    iterations := iter }

/-- Signed violation of stacked row `i` at `x` (positive means `Cᵢ·x`
exceeds `dᵢ`). -/
def violTerm (P : Problem) (x : Vec) (i : Nat) : ℚ :=
  dot ((rowsC P).getD i []) x - (rhsD P).getD i 0

/-- Inequality rows violated by more than the tolerance at the current
iterate, with their violations. -/
def violatedIneqs (P : Problem) (eps : ℚ) (s : QPState) : List (Nat × ℚ) :=
  (List.range (mIneq P)).filterMap (fun i =>
    if eps < violTerm P s.x (pEq P + i) then
      some (pEq P + i, violTerm P s.x (pEq P + i))
    else none)

/-- Whether every equality row holds at `x` within the tolerance. -/
def eqFeasible (P : Problem) (eps : ℚ) (x : Vec) : Bool :=
  (List.range (pEq P)).all
    (fun i => decide (-eps ≤ violTerm P x i ∧ violTerm P x i ≤ eps))

/-- First element attaining the maximal second component. -/
def pickMaxBy : List (Nat × ℚ) → Option (Nat × ℚ)
  | [] => none
  | e :: rest =>
    match pickMaxBy rest with
    | none => some e
    | some e2 => if e2.2 ≤ e.2 then some e else some e2

/-- First element attaining the minimal second component. -/
def pickMinBy : List (Nat × ℚ) → Option (Nat × ℚ)
  | [] => none
  | e :: rest =>
    match pickMinBy rest with
    | none => some e
    | some e2 => if e.2 ≤ e2.2 then some e else some e2

/-- The most violated inactive inequality row, if any (the constraint the
solver will try to add to the working set). -/
def chooseAdd (P : Problem) (eps : ℚ) (s : QPState) : Option Nat :=
  match pickMaxBy ((violatedIneqs P eps s).filter
      (fun e => s.act.all (fun a => decide (a.1 ≠ e.1)))) with
  | some e => some e.1
  | none => none

/-- Position in `act` of the most negative inequality multiplier below
`-eps`, if any (the constraint the removal rule drops first). -/
def negMultPos (P : Problem) (eps : ℚ) (s : QPState) : Option Nat :=
  match pickMinBy ((List.range s.act.length).filterMap (fun k =>
      match s.act.get? k with
      | some a =>
        if pEq P ≤ a.1 ∧ a.2 < -eps then some (k, a.2) else none
      | none => none)) with
  | some e => some e.1
  | none => none

/-- Update the active multipliers by a (dual) step of length `t` with
rates `w`. -/
def updMult (t : ℚ) : List (Nat × ℚ) → Vec → List (Nat × ℚ)
  | [], _ => []
  | a :: rest, w => (a.1, a.2 - t * w.headI) :: updMult t rest w.tail

/-- Candidate dual step lengths: positions of active inequality rows whose
multiplier decreases (rate above the tolerance), with the step length at
which that multiplier reaches zero. -/
def dualCands (P : Problem) (eps : ℚ) (act : List (Nat × ℚ)) (w : Vec) :
    List (Nat × ℚ) :=
  (List.range act.length).filterMap (fun k =>
    match act.get? k, w.get? k with
    | some a, some wk =>
      if pEq P ≤ a.1 ∧ eps < wk then some (k, a.2 / wk) else none
    | _, _ => none)

/-- The inequality working set carried by an active-row list. -/
def wsOf (P : Problem) (act : List (Nat × ℚ)) : List Nat :=
  (act.map Prod.fst).filter (fun i => decide (pEq P ≤ i))

/-- The working set of a solver state: its active inequality rows. -/
def workingSet (P : Problem) (s : QPState) : List Nat := wsOf P s.act

/-- Size of the working set. -/
def wsCount (P : Problem) (s : QPState) : Nat := (workingSet P s).length

/-- Take the full step `t` along direction `z`: constraint `j` becomes
active with multiplier `lj + t` provided the working-set invariant
`|W| + p ≤ n` allows one more active row; otherwise the equality
subsystem would be over-determined and the problem is reported
infeasible. -/
def fullStep (P : Problem) (s : QPState) (j : Nat) (lj : ℚ) (z w : Vec)
    (t : ℚ) : QPState ⊕ Result :=
  if wsCount P s + pEq P < nVars P then
    Sum.inl { x := subV s.x (smulV t z)
              act := updMult t s.act w ++ [(j, lj + t)]
              pending := none
              iter := s.iter + 1 }
  else Sum.inr (failResult .Infeasible s.iter)

/-- Take the dual step `t`, dropping the active row at position `k` (its
multiplier has reached zero) and keeping `j` pending. -/
def dualStep (s : QPState) (j : Nat) (lj : ℚ) (z w : Vec) (k : Nat)
    (t : ℚ) : QPState :=
  { x := subV s.x (smulV t z)
    act := (updMult t s.act w).eraseIdx k
    pending := some (j, lj + t)
    iter := s.iter + 1 }

/-- One constraint-addition iteration for pending inequality row `j` with
accumulated multiplier `lj`: solve the KKT direction system, compare the
full step length (the ratio test making `j` binding) with the first dual
blocking step, and take the shorter one.  No recourse — a singular system
or no admissible step — reports Infeasible. -/
def processAdd (P : Problem) (eps : ℚ) (s : QPState) (j : Nat) (lj : ℚ) :
    QPState ⊕ Result :=
  match solveDir P.Q (s.act.map (fun a => (rowsC P).getD a.1 [])) ((rowsC P).getD j []) with
  | none => Sum.inr (failResult .Infeasible s.iter)
  | some (z, w) =>
    let cjz := dot ((rowsC P).getD j []) z
    let tFull : Option ℚ :=
      if eps < cjz then some (violTerm P s.x j / cjz) else none
    match tFull, pickMinBy (dualCands P eps s.act w) with
    | none, none => Sum.inr (failResult .Infeasible s.iter)
    | some t, none => fullStep P s j lj z w t
    | none, some kt => Sum.inl (dualStep s j lj z w kt.1 kt.2)
    | some t, some kt =>
      if t ≤ kt.2 then fullStep P s j lj z w t
      else Sum.inl (dualStep s j lj z w kt.1 kt.2)

/-- Modelled from the spec: one ActiveSetSolver iteration step.  With no
pending row: if no inequality is violated and the equalities hold, the
multiplier check either certifies optimality (all inequality multipliers
≥ −ε) or removes the most negative multiplier from the working set;
otherwise the most violated inactive inequality starts being added.
Every continuing step changes the working set by exactly one index. -/
def step (P : Problem) (eps : ℚ) (s : QPState) : QPState ⊕ Result :=
  match s.pending with
  | some jl => processAdd P eps s jl.1 jl.2
  | none =>
    if violatedIneqs P eps s = [] then
      if eqFeasible P eps s.x then
        match negMultPos P eps s with
        | some k =>
          Sum.inl { x := s.x, act := s.act.eraseIdx k, pending := none,
                    iter := s.iter + 1 }
        | none => Sum.inr (optimalResult P s)
      else Sum.inr (failResult .Infeasible s.iter)
    else
      match chooseAdd P eps s with
      | some j => processAdd P eps s j 0
      | none => Sum.inr (failResult .Infeasible s.iter)

/-- Add equality row `i` to the active rows during initialization (full
step onto the equality hyperplane); a redundant consistent row is
skipped, an inconsistent one reports Infeasible. -/
def addEqRow (P : Problem) (eps : ℚ) (s : QPState) (i : Nat) :
    QPState ⊕ Result :=
  match solveDir P.Q (s.act.map (fun a => (rowsC P).getD a.1 [])) ((rowsC P).getD i []) with
  | none => Sum.inr (failResult .Infeasible s.iter)
  | some (z, w) =>
    let ciz := dot ((rowsC P).getD i []) z
    if -eps ≤ ciz ∧ ciz ≤ eps then
      if -eps ≤ violTerm P s.x i ∧ violTerm P s.x i ≤ eps then Sum.inl s
      else Sum.inr (failResult .Infeasible s.iter)
    else
      Sum.inl { x := subV s.x (smulV (violTerm P s.x i / ciz) z)
                act := updMult (violTerm P s.x i / ciz) s.act w
                    ++ [(i, violTerm P s.x i / ciz)]
                pending := none
                iter := s.iter }

/-- Initialization: enforce the equality constraints one row at a time
before the active-set loop starts. -/
def initEqs (P : Problem) (eps : ℚ) : List Nat → QPState → QPState ⊕ Result
  | [], s => Sum.inl s
  | i :: rest, s =>
    match addEqRow P eps s i with
    | Sum.inl s' => initEqs P eps rest s'
    | Sum.inr r => Sum.inr r

/-- The active-set loop with an iteration budget: when the budget is
exhausted without the step terminating, the solver stops with
IterationLimitExceeded. -/
def runLoop (P : Problem) (eps : ℚ) : Nat → QPState → Result
  | 0, s =>
    match step P eps s with
    | Sum.inr r => r
    | Sum.inl _ => failResult .IterationLimitExceeded s.iter
  | fuel+1, s =>
    match step P eps s with
    | Sum.inr r => r
    | Sum.inl s' => runLoop P eps fuel s'

/-- Solver options: feasibility/multiplier tolerance and iteration cap. -/
structure Options where
  tol : ℚ
  maxIter : Nat
deriving DecidableEq

/-- Default options: tolerance 1e-8 and iteration cap 10×(n+m). -/
def defaultOptions (P : Problem) : Options :=
  { tol := 1 / 100000000, maxIter := 10 * (nVars P + mIneq P) }

/-- Modelled from the spec: the Driver on a validated problem — start at
the unconstrained minimizer of the quadratic (solve Qx = −p; a singular
Q reports Unbounded), enforce the equalities, then run the active-set
loop. -/
def solveWith (opts : Options) (P : Problem) : Result :=
  match solveLin (nVars P) (kktRows P.Q [] (negV P.pv)) with
  | none => failResult .Unbounded 0
  | some x0 =>
    match initEqs P opts.tol (List.range (pEq P)) ⟨x0, [], none, 0⟩ with
    | Sum.inr r => r
    | Sum.inl s => runLoop P opts.tol opts.maxIter s

/-- Validation errors, raised to the caller (a caller error). -/
inductive ValidationError
  | DimensionMismatch
  | NotSymmetric
deriving DecidableEq

/-- Dimensional well-formedness of the six input arrays. -/
def wellFormed (P : Problem) : Bool :=
  decide (P.Q.length = nVars P) &&
  P.Q.all (fun r => decide (r.length = nVars P)) &&
  P.G.all (fun r => decide (r.length = nVars P)) &&
  decide (P.h.length = mIneq P) &&
  P.A.all (fun r => decide (r.length = nVars P)) &&
  decide (P.bv.length = pEq P)

/-- Modelled from the spec: the public entry `solve(problem, options)`:
validation errors abort the call, every solver-internal condition is
reported inside the returned `Result`. -/
def solveQP (opts : Options) (P : Problem) : Except ValidationError Result :=
  if wellFormed P then Except.ok (solveWith opts P)
  else Except.error .DimensionMismatch

deriving instance DecidableEq for Except

/-- The entry point with default options on raw arrays. -/
def solve (Q : Mat) (pv : Vec) (G : Mat) (h : Vec) (A : Mat) (bv : Vec) :
    Except ValidationError Result :=
  solveQP (defaultOptions ⟨Q, pv, G, h, A, bv⟩) ⟨Q, pv, G, h, A, bv⟩

/-- The equality constraints as the front-end accepts them: absent, a
single row given as a one-dimensional length-n vector, or an explicit
matrix. -/
inductive EqForm
  | noEq : EqForm
  | vecEq (a : Vec) (bs : Vec) : EqForm
  | matEq (M : Mat) (bs : Vec) : EqForm
deriving DecidableEq

/-- Normalization of the equality-constraint input: a one-dimensional `A`
is treated as the 1×n matrix `[A]`. -/
def eqMatOf : EqForm → Mat
  | .noEq => []
  | .vecEq a _ => [a]
  | .matEq M _ => M

/-- Right-hand side of the equality-constraint input. -/
def eqRhsOf : EqForm → Vec
  | .noEq => []
  | .vecEq _ bs => bs
  | .matEq _ bs => bs

/-- The public entry point on raw arrays with the flexible equality form. -/
def solveEntry (Q : Mat) (pv : Vec) (G : Mat) (h : Vec) (e : EqForm) :
    Except ValidationError Result :=
  solve Q pv G h (eqMatOf e) (eqRhsOf e)

/-- Positive semi-definiteness of the quadratic form (the convexity
precondition of the specification). -/
def PosSemidef (Q : Mat) : Prop := ∀ v : Vec, 0 ≤ dot v (matVec Q v)

/-- A point satisfying all constraints of the problem exactly. -/
def feasiblePoint (P : Problem) (x : Vec) : Prop :=
  (∀ i < mIneq P, dot (P.G.getD i []) x ≤ P.h.getD i 0) ∧
  (∀ i < pEq P, dot (P.A.getD i []) x = P.bv.getD i 0)

instance feasiblePointDecidable (P : Problem) (x : Vec) :
    Decidable (feasiblePoint P x) := by
  unfold feasiblePoint
  infer_instance

/-- A pending constraint, if any, is an inequality row. -/
def pendingOKb (P : Problem) (s : QPState) : Bool :=
  match s.pending with
  | none => true
  | some jl => decide (pEq P ≤ jl.1)

/-- The reachable-state invariant: the working set together with the
equality rows never over-determines the equality subsystem, and any
pending row is an inequality row. -/
def stateInv (P : Problem) (s : QPState) : Prop :=
  wsCount P s + pEq P ≤ nVars P ∧ pendingOKb P s = true

end QP

namespace QP

/-- Claim C2: on Q = 2·[[2,1/2],[1/2,1]] = [[4,1],[1,2]], p = [1,1],
G = [[-1,0],[0,-1]], h = [0,0], A = [1,1] (the 1×n matrix [[1,1]]),
b = [1], solve returns status Optimal with x* = [1/4, 3/4], which is
exactly the claimed [0.25, 0.75]. -/
theorem solve_reference_example_one :
    solve [[4,1],[1,2]] [1,1] [[-1,0],[0,-1]] [0,0] [[1,1]] [1] =
      Except.ok { status := .Optimal, xstar := some [1/4, 3/4],
                  objective := some (15/8), lamMult := [0, 0],
                  nuMult := [-11/4], iterations := 0 } ∧
    ([[(2:ℚ)*2, 2*(1/2)], [2*(1/2), 2*1]] : Mat) = [[4,1],[1,2]] ∧
    ((1:ℚ)/4 = 25/100 ∧ (3:ℚ)/4 = 75/100) := by
  decide

/-- Claim C3: on Q = 2·[[3,1],[1,1]] = [[6,2],[2,2]], p = [1,6],
G = [[-2,-3],[-1,0],[0,-1]], h = [-4,0,0] and no equality constraints,
solve returns status Optimal with x* = [1/2, 1], and the objective
½x*ᵀQx* + pᵀx* = 37/4 plus the externally added constant 2 equals
45/4 = 11.25. -/
theorem solve_reference_example_two :
    solve [[6,2],[2,2]] [1,6] [[-2,-3],[-1,0],[0,-1]] [-4,0,0] [] [] =
      Except.ok { status := .Optimal, xstar := some [1/2, 1],
                  objective := some (37/4), lamMult := [3, 0, 0],
                  nuMult := [], iterations := 1 } ∧
    ([[(2:ℚ)*3, 2*1], [2*1, 2*1]] : Mat) = [[6,2],[2,2]] ∧
    (37:ℚ)/4 + 2 = 45/4 ∧ (45:ℚ)/4 = 1125/100 := by
  decide

/-- Claim C4: on Q = [[1,-1],[-1,2]], p = [-2,-6],
G = [[1,1],[-1,2],[2,1]], h = [2,2,3] and no equality constraints,
solve returns status Optimal with x* = [2/3, 4/3] ≈ [0.6667, 1.3333] and
objective value −74/9 ≈ −8.2222. -/
theorem solve_reference_example_three :
    solve [[1,-1],[-1,2]] [-2,-6] [[1,1],[-1,2],[2,1]] [2,2,3] [] [] =
      Except.ok { status := .Optimal, xstar := some [2/3, 4/3],
                  objective := some (-74/9), lamMult := [28/9, 4/9, 0],
                  nuMult := [], iterations := 4 } ∧
    |(2:ℚ)/3 - 6667/10000| ≤ 1/10000 ∧
    |(4:ℚ)/3 - 13333/10000| ≤ 1/10000 ∧
    |(-74:ℚ)/9 - (-82222/10000)| ≤ 1/10000 := by
  decide

/-- Claim C10: the public entry point accepts a single equality
constraint given as a one-dimensional length-n vector, treats it as the
1×n matrix [A], and returns the same result as the explicit matrix form;
on reference example 1 the 1-D form yields the same optimal solution. -/
theorem entry_accepts_vector_equality :
    (∀ (Q : Mat) (pv : Vec) (G : Mat) (h : Vec) (a bs : Vec),
      solveEntry Q pv G h (.vecEq a bs) = solveEntry Q pv G h (.matEq [a] bs)) ∧
    solveEntry [[4,1],[1,2]] [1,1] [[-1,0],[0,-1]] [0,0] (.vecEq [1,1] [1]) =
      Except.ok { status := .Optimal, xstar := some [1/4, 3/4],
                  objective := some (15/8), lamMult := [0, 0],
                  nuMult := [-11/4], iterations := 0 } := by
  exact ⟨fun Q pv G h a bs => rfl, by decide⟩

/-- Claim C6: solve is deterministic — two calls with identical inputs
return identical Results. -/
theorem solve_deterministic (Q : Mat) (pv : Vec) (G : Mat) (h : Vec)
    (A : Mat) (bv : Vec) (r1 r2 : Except ValidationError Result)
    (h1 : solve Q pv G h A bv = r1) (h2 : solve Q pv G h A bv = r2) :
    r1 = r2 :=
  h1.symm.trans h2

/-- Witness for C6: two calls on reference example 1 agree (the second
result literal is spelled with unreduced fractions). -/
theorem solve_deterministic_witness :
    Except.ok { status := Status.Optimal, xstar := some [1/4, 3/4],
                objective := some (15/8), lamMult := [0, 0],
                nuMult := [-11/4], iterations := 0 } =
      (Except.ok { status := Status.Optimal, xstar := some [25/100, 75/100],
                   objective := some (150/80), lamMult := [0, 0],
                   nuMult := [-33/12], iterations := 0 }
        : Except ValidationError Result) :=
  solve_deterministic [[4,1],[1,2]] [1,1] [[-1,0],[0,-1]] [0,0] [[1,1]] [1]
    _ _ (by decide) (by decide)

/-- Claim C5: on dimensionally well-formed inputs the solver never
throws — the caller always receives a structured Result (solver-internal
conditions are Result statuses); in particular the problem with
A = [1,1], b = [5] and G, h forcing x₁, x₂ ∈ [0,1] returns a Result with
status Infeasible. -/
theorem solver_conditions_are_statuses :
    (∀ (Q : Mat) (pv : Vec) (G : Mat) (h : Vec) (A : Mat) (bv : Vec),
      wellFormed ⟨Q, pv, G, h, A, bv⟩ = true →
      solve Q pv G h A bv =
        Except.ok (solveWith (defaultOptions ⟨Q, pv, G, h, A, bv⟩)
          ⟨Q, pv, G, h, A, bv⟩)) ∧
    solve [[1,0],[0,1]] [0,0] [[-1,0],[0,-1],[1,0],[0,1]] [0,0,1,1]
        [[1,1]] [5] =
      Except.ok { status := .Infeasible, xstar := none, objective := none,
                  lamMult := [], nuMult := [], iterations := 1 } := by
  constructor
  · intro Q pv G h A bv hwf
    simp [solve, solveQP, hwf]
  · decide

/-- Witness for C5: the infeasible instance is well-formed and receives
a structured Result. -/
theorem solver_conditions_are_statuses_witness :
    wellFormed ⟨[[1,0],[0,1]], [0,0], [[-1,0],[0,-1],[1,0],[0,1]],
        [0,0,1,1], [[1,1]], [5]⟩ = true ∧
    solve [[1,0],[0,1]] [0,0] [[-1,0],[0,-1],[1,0],[0,1]] [0,0,1,1]
        [[1,1]] [5] =
      Except.ok (solveWith
        (defaultOptions ⟨[[1,0],[0,1]], [0,0], [[-1,0],[0,-1],[1,0],[0,1]],
          [0,0,1,1], [[1,1]], [5]⟩)
        ⟨[[1,0],[0,1]], [0,0], [[-1,0],[0,-1],[1,0],[0,1]],
          [0,0,1,1], [[1,1]], [5]⟩) :=
  ⟨by decide, solver_conditions_are_statuses.1 _ _ _ _ _ _ (by decide)⟩

/-- Claim C9: with no inequality and no equality constraints the solver
returns exactly the solution of the linear system Qx = −p, with zero
active-set iterations. -/
theorem unconstrained_is_linear_solve (P : Problem) (opts : Options)
    (x0 : Vec) (hG : P.G = []) (hA : P.A = [])
    (hlin : solveLin (nVars P) (kktRows P.Q [] (negV P.pv)) = some x0) :
    solveWith opts P =
      { status := .Optimal, xstar := some x0,
        objective := some (objectiveAt P x0), lamMult := [], nuMult := [],
        iterations := 0 } := by
  have hp : pEq P = 0 := by simp [pEq, hA]
  have hm : mIneq P = 0 := by simp [mIneq, hG]
  have hstep : step P opts.tol ⟨x0, [], none, 0⟩ =
      Sum.inr (optimalResult P ⟨x0, [], none, 0⟩) := by
    simp [step, violatedIneqs, hm, eqFeasible, hp, negMultPos, pickMinBy,
      List.range_zero, List.filterMap_nil]
  have hres : optimalResult P ⟨x0, [], none, 0⟩ =
      { status := .Optimal, xstar := some x0,
        objective := some (objectiveAt P x0), lamMult := [], nuMult := [],
        iterations := 0 } := by
    simp [optimalResult, hm, hp]
  simp only [solveWith, hlin, hp, List.range_zero, initEqs]
  cases hmi : opts.maxIter with
  | zero => simp [runLoop, hstep, hres]
  | succ k => simp [runLoop, hstep, hres]

/-- Witness for C9 at Q = [[2,0],[0,2]], p = [-2,-4]: the direct linear
solve gives [1,2] and the solver returns it optimally in 0 iterations. -/
theorem unconstrained_is_linear_solve_witness :
    solveLin (nVars ⟨[[2,0],[0,2]], [-2,-4], [], [], [], []⟩)
      (kktRows [[2,0],[0,2]] [] (negV [-2,-4])) = some [1, 2] ∧
    solveWith (defaultOptions ⟨[[2,0],[0,2]], [-2,-4], [], [], [], []⟩)
        ⟨[[2,0],[0,2]], [-2,-4], [], [], [], []⟩ =
      { status := .Optimal, xstar := some [1, 2],
        objective :=
          some (objectiveAt ⟨[[2,0],[0,2]], [-2,-4], [], [], [], []⟩ [1, 2]),
        lamMult := [], nuMult := [], iterations := 0 } :=
  ⟨by decide, unconstrained_is_linear_solve _ _ _ rfl rfl (by decide)⟩

theorem pickMinBy_mem : ∀ (l : List (Nat × ℚ)) (e : Nat × ℚ),
    pickMinBy l = some e → e ∈ l := by
  intro l
  induction l with
  | nil => intro e h; cases h
  | cons a t ih =>
    intro e h
    simp only [pickMinBy] at h
    split at h
    · injection h with h; subst h; exact List.mem_cons_self _ _
    · split at h
      · injection h with h; subst h; exact List.mem_cons_self _ _
      · injection h with h; subst h
        exact List.mem_cons_of_mem _ (ih _ (by assumption))

theorem pickMaxBy_mem : ∀ (l : List (Nat × ℚ)) (e : Nat × ℚ),
    pickMaxBy l = some e → e ∈ l := by
  intro l
  induction l with
  | nil => intro e h; cases h
  | cons a t ih =>
    intro e h
    simp only [pickMaxBy] at h
    split at h
    · injection h with h; subst h; exact List.mem_cons_self _ _
    · split at h
      · injection h with h; subst h; exact List.mem_cons_self _ _
      · injection h with h; subst h
        exact List.mem_cons_of_mem _ (ih _ (by assumption))

theorem dualCands_mem (P : Problem) (eps : ℚ) (act : List (Nat × ℚ))
    (w : Vec) (kt : Nat × ℚ) (hm : kt ∈ dualCands P eps act w) :
    ∃ a, act.get? kt.1 = some a ∧ pEq P ≤ a.1 := by
  simp only [dualCands, List.mem_filterMap, List.mem_range] at hm
  obtain ⟨k, hk, hf⟩ := hm
  split at hf
  · rename_i a wk hga hgw
    split at hf
    · rename_i hcond
      injection hf with hf
      subst hf
      exact ⟨a, hga, hcond.1⟩
    · cases hf
  · cases hf

theorem negMultPos_some (P : Problem) (eps : ℚ) (s : QPState) (k : Nat)
    (h : negMultPos P eps s = some k) :
    ∃ a, s.act.get? k = some a ∧ pEq P ≤ a.1 := by
  simp only [negMultPos] at h
  split at h
  · rename_i e heq
    injection h with h
    subst h
    have hmem := pickMinBy_mem _ _ heq
    simp only [List.mem_filterMap, List.mem_range] at hmem
    obtain ⟨k0, hk0, hf⟩ := hmem
    split at hf
    · rename_i a hga
      split at hf
      · rename_i hcond
        injection hf with hf
        subst hf
        exact ⟨a, hga, hcond.1⟩
      · cases hf
    · cases hf
  · cases h

theorem chooseAdd_some (P : Problem) (eps : ℚ) (s : QPState) (j : Nat)
    (h : chooseAdd P eps s = some j) : pEq P ≤ j := by
  simp only [chooseAdd] at h
  split at h
  · rename_i e heq
    injection h with h
    subst h
    have hmem := pickMaxBy_mem _ _ heq
    have hv := (List.mem_filter.mp hmem).1
    simp only [violatedIneqs, List.mem_filterMap, List.mem_range] at hv
    obtain ⟨i, hi, hf⟩ := hv
    split at hf
    · injection hf with hf
      subst hf
      exact Nat.le_add_right _ _
    · cases hf
  · cases h

theorem processAdd_inr_eq (P : Problem) (eps : ℚ) (s : QPState) (j : Nat)
    (lj : ℚ) (r : Result) (h : processAdd P eps s j lj = Sum.inr r) :
    r = failResult .Infeasible s.iter := by
  simp only [processAdd, fullStep] at h
  repeat' split at h
  all_goals first
    | (injection h with h; exact h.symm)
    | cases h

theorem processAdd_inl_cases (P : Problem) (eps : ℚ) (s : QPState) (j : Nat)
    (lj : ℚ) (s' : QPState) (h : processAdd P eps s j lj = Sum.inl s') :
    (∃ (z w : Vec) (t : ℚ), wsCount P s + pEq P < nVars P ∧
      s' = ⟨subV s.x (smulV t z), updMult t s.act w ++ [(j, lj + t)],
            none, s.iter + 1⟩) ∨
    (∃ (z w : Vec) (kt a : Nat × ℚ), s.act.get? kt.1 = some a ∧ pEq P ≤ a.1 ∧
      s' = ⟨subV s.x (smulV kt.2 z), (updMult kt.2 s.act w).eraseIdx kt.1,
            some (j, lj + kt.2), s.iter + 1⟩) := by
  simp only [processAdd, fullStep, dualStep] at h
  repeat' split at h
  all_goals cases h
  all_goals first
    | exact Or.inl ⟨_, _, _, by assumption, rfl⟩
    | (obtain ⟨a, hga, hpa⟩ :=
        dualCands_mem P eps s.act _ _ (pickMinBy_mem _ _ (by assumption))
       exact Or.inr ⟨_, _, _, a, hga, hpa, rfl⟩)

theorem step_inl_cases (P : Problem) (eps : ℚ) (s s' : QPState)
    (h : step P eps s = Sum.inl s') :
    (∃ jl, s.pending = some jl ∧ processAdd P eps s jl.1 jl.2 = Sum.inl s') ∨
    (s.pending = none ∧ ∃ k a, negMultPos P eps s = some k ∧
      s.act.get? k = some a ∧ pEq P ≤ a.1 ∧
      s' = ⟨s.x, s.act.eraseIdx k, none, s.iter + 1⟩) ∨
    (s.pending = none ∧ ∃ j, chooseAdd P eps s = some j ∧
      processAdd P eps s j 0 = Sum.inl s') := by
  unfold step at h
  split at h
  · rename_i jl hpend
    exact Or.inl ⟨jl, hpend, h⟩
  · rename_i hpend
    split at h
    · split at h
      · split at h
        · rename_i k hneg
          injection h with h
          obtain ⟨a, hga, hpa⟩ := negMultPos_some P eps s k hneg
          exact Or.inr (Or.inl ⟨hpend, k, a, hneg, hga, hpa, h.symm⟩)
        · cases h
      · cases h
    · split at h
      · rename_i j hch
        exact Or.inr (Or.inr ⟨hpend, j, hch, h⟩)
      · cases h

theorem step_inr_cases (P : Problem) (eps : ℚ) (s : QPState) (r : Result)
    (h : step P eps s = Sum.inr r) :
    r = failResult .Infeasible s.iter ∨
    (r = optimalResult P s ∧ violatedIneqs P eps s = [] ∧
      eqFeasible P eps s.x = true ∧ negMultPos P eps s = none) := by
  unfold step at h
  split at h
  · exact Or.inl (processAdd_inr_eq _ _ _ _ _ _ h)
  · split at h
    · split at h
      · split at h
        · cases h
        · rename_i hneg
          injection h with h
          rename_i hviol hfeas _
          exact Or.inr ⟨h.symm, hviol, hfeas, hneg⟩
      · injection h with h
        exact Or.inl h.symm
    · split at h
      · exact Or.inl (processAdd_inr_eq _ _ _ _ _ _ h)
      · injection h with h
        exact Or.inl h.symm

theorem step_inl_iter (P : Problem) (eps : ℚ) (s s' : QPState)
    (h : step P eps s = Sum.inl s') : s'.iter = s.iter + 1 := by
  rcases step_inl_cases P eps s s' h with ⟨jl, _, hpa⟩ | ⟨_, k, a, _, _, _, hs⟩ | ⟨_, j, _, hpa⟩
  · rcases processAdd_inl_cases _ _ _ _ _ _ hpa with ⟨z, w, t, _, hs⟩ | ⟨z, w, kt, a, _, _, hs⟩
    all_goals subst hs; rfl
  · subst hs; rfl
  · rcases processAdd_inl_cases _ _ _ _ _ _ hpa with ⟨z, w, t, _, hs⟩ | ⟨z, w, kt, a, _, _, hs⟩
    all_goals subst hs; rfl

theorem step_inr_iter (P : Problem) (eps : ℚ) (s : QPState) (r : Result)
    (h : step P eps s = Sum.inr r) : r.iterations = s.iter := by
  rcases step_inr_cases P eps s r h with hr | ⟨hr, _, _, _⟩
  all_goals subst hr; rfl

theorem runLoop_iter_le (P : Problem) (eps : ℚ) :
    ∀ (fuel : Nat) (s : QPState),
      (runLoop P eps fuel s).iterations ≤ s.iter + fuel := by
  intro fuel
  induction fuel with
  | zero =>
    intro s
    unfold runLoop
    split
    · rename_i r hr
      exact le_of_eq ((step_inr_iter P eps s r hr).trans (Nat.add_zero _).symm)
    · simp [failResult]
  | succ n ih =>
    intro s
    unfold runLoop
    split
    · rename_i r hr
      have := step_inr_iter P eps s r hr
      omega
    · rename_i s' hs'
      have h1 := ih s'
      have h2 := step_inl_iter P eps s s' hs'
      omega

theorem addEqRow_inl_iter (P : Problem) (eps : ℚ) (s : QPState) (i : Nat)
    (s' : QPState) (h : addEqRow P eps s i = Sum.inl s') :
    s'.iter = s.iter := by
  simp only [addEqRow] at h
  repeat' split at h
  all_goals first
    | (injection h with h; subst h; rfl)
    | cases h

theorem addEqRow_inr_iter (P : Problem) (eps : ℚ) (s : QPState) (i : Nat)
    (r : Result) (h : addEqRow P eps s i = Sum.inr r) :
    r = failResult .Infeasible s.iter := by
  simp only [addEqRow] at h
  repeat' split at h
  all_goals first
    | (injection h with h; exact h.symm)
    | cases h

theorem initEqs_inl_iter (P : Problem) (eps : ℚ) :
    ∀ (rows : List Nat) (s s' : QPState),
      initEqs P eps rows s = Sum.inl s' → s'.iter = s.iter := by
  intro rows
  induction rows with
  | nil =>
    intro s s' h
    injection h with h
    subst h; rfl
  | cons i rest ih =>
    intro s s' h
    simp only [initEqs] at h
    split at h
    · rename_i s0 hs0
      exact (ih _ _ h).trans (addEqRow_inl_iter P eps s i s0 hs0)
    · cases h

theorem initEqs_inr_iter (P : Problem) (eps : ℚ) :
    ∀ (rows : List Nat) (s : QPState) (r : Result),
      initEqs P eps rows s = Sum.inr r → r.iterations = s.iter := by
  intro rows
  induction rows with
  | nil => intro s r h; cases h
  | cons i rest ih =>
    intro s r h
    simp only [initEqs] at h
    split at h
    · rename_i s0 hs0
      exact (ih _ _ h).trans (addEqRow_inl_iter P eps s i s0 hs0)
    · rename_i r0 hr0
      injection h with h
      subst h
      rw [addEqRow_inr_iter P eps s i r0 hr0]
      rfl

/-- Claim C7: the solver always terminates within the configured
iteration cap, whose default is 10×(n+m), and an exhausted budget
surfaces as the IterationLimitExceeded status rather than a crash or a
diverging loop: with no budget left, a step either terminates on its own
or the solver stops with IterationLimitExceeded. -/
theorem iteration_cap_and_limit_status :
    (∀ (P : Problem) (opts : Options),
      (solveWith opts P).iterations ≤ opts.maxIter) ∧
    (∀ P : Problem,
      (defaultOptions P).maxIter = 10 * (nVars P + mIneq P)) ∧
    (∀ (P : Problem) (eps : ℚ) (s : QPState),
      (∃ r, step P eps s = Sum.inr r ∧ runLoop P eps 0 s = r) ∨
      (runLoop P eps 0 s).status = .IterationLimitExceeded) := by
  refine ⟨?_, fun P => rfl, ?_⟩
  · intro P opts
    unfold solveWith
    split
    · simp [failResult]
    · split
      · rename_i r hr
        have := initEqs_inr_iter P opts.tol _ _ _ hr
        simp_all
      · rename_i s hs
        have h1 := runLoop_iter_le P opts.tol opts.maxIter s
        have h2 := initEqs_inl_iter P opts.tol _ _ _ hs
        simp_all
  · intro P eps s
    cases hstep : step P eps s with
    | inr r =>
      refine Or.inl ⟨r, rfl, ?_⟩
      unfold runLoop
      rw [hstep]
    | inl s' =>
      refine Or.inr ?_
      unfold runLoop
      rw [hstep]
      rfl

theorem eraseIdx_map {α β : Type} (f : α → β) :
    ∀ (l : List α) (k : Nat), (l.eraseIdx k).map f = (l.map f).eraseIdx k := by
  intro l
  induction l with
  | nil => intro k; rfl
  | cons a t ih =>
    intro k
    cases k with
    | zero => rfl
    | succ k =>
      rw [List.eraseIdx_cons_succ, List.map_cons, List.map_cons,
        List.eraseIdx_cons_succ, ih]

theorem filter_eraseIdx_of_get {α : Type} (p : α → Bool) :
    ∀ (l : List α) (k : Nat) (a : α), l.get? k = some a → p a = true →
      (l.eraseIdx k).filter p = (l.filter p).eraseIdx ((l.take k).countP p) := by
  intro l
  induction l with
  | nil => intro k a h; simp at h
  | cons b t ih =>
    intro k a h hp
    cases k with
    | zero =>
      rw [List.get?_cons_zero] at h
      injection h with h
      subst h
      simp [List.filter_cons, hp]
    | succ k =>
      rw [List.get?_cons_succ] at h
      rw [List.eraseIdx_cons_succ, List.take_succ_cons, List.countP_cons]
      cases hb : p b with
      | true => simp [List.filter_cons, hb, ih k a h hp, List.eraseIdx_cons_succ]
      | false => simp [List.filter_cons, hb, ih k a h hp]

theorem countP_take_lt {α : Type} (p : α → Bool) :
    ∀ (l : List α) (k : Nat) (a : α), l.get? k = some a → p a = true →
      (l.take k).countP p < (l.filter p).length := by
  intro l
  induction l with
  | nil => intro k a h; simp at h
  | cons b t ih =>
    intro k a h hp
    cases k with
    | zero =>
      rw [List.get?_cons_zero] at h
      injection h with h
      subst h
      simp [List.filter_cons, hp]
    | succ k =>
      rw [List.get?_cons_succ] at h
      rw [List.take_succ_cons, List.countP_cons]
      cases hb : p b with
      | true =>
        have := ih k a h hp
        simp [List.filter_cons, hb]
        omega
      | false =>
        have := ih k a h hp
        simp [List.filter_cons, hb]
        omega

theorem updMult_fst (t : ℚ) :
    ∀ (l : List (Nat × ℚ)) (w : Vec),
      (updMult t l w).map Prod.fst = l.map Prod.fst := by
  intro l
  induction l with
  | nil => intro w; rfl
  | cons a rest ih => intro w; simp [updMult, ih]

theorem updMult_get (t : ℚ) :
    ∀ (l : List (Nat × ℚ)) (w : Vec) (k : Nat) (a : Nat × ℚ),
      l.get? k = some a → ∃ q, (updMult t l w).get? k = some (a.1, q) := by
  intro l
  induction l with
  | nil => intro w k a h; simp at h
  | cons b rest ih =>
    intro w k a h
    cases k with
    | zero =>
      rw [List.get?_cons_zero] at h
      injection h with h
      subst h
      exact ⟨b.2 - t * w.headI, rfl⟩
    | succ k =>
      rw [List.get?_cons_succ] at h
      exact ih w.tail k a h

theorem wsOf_append (P : Problem) (l1 l2 : List (Nat × ℚ)) :
    wsOf P (l1 ++ l2) = wsOf P l1 ++ wsOf P l2 := by
  simp [wsOf, List.filter_append]

theorem wsOf_single (P : Problem) (j : Nat) (q : ℚ) (hj : pEq P ≤ j) :
    wsOf P [(j, q)] = [j] := by
  simp [wsOf, List.filter_cons, hj]

theorem wsOf_updMult (P : Problem) (t : ℚ) (l : List (Nat × ℚ)) (w : Vec) :
    wsOf P (updMult t l w) = wsOf P l := by
  simp [wsOf, updMult_fst]

theorem wsOf_eraseIdx (P : Problem) (l : List (Nat × ℚ)) (k : Nat)
    (a : Nat × ℚ) (hget : l.get? k = some a) (ha : pEq P ≤ a.1) :
    ∃ kv : Nat, kv < (wsOf P l).length ∧
      wsOf P (l.eraseIdx k) = (wsOf P l).eraseIdx kv := by
  have hmap : (l.map Prod.fst).get? k = some a.1 := by
    rw [List.get?_map, hget]; rfl
  have hpa : (fun i => decide (pEq P ≤ i)) a.1 = true := by
    simp [ha]
  refine ⟨((l.map Prod.fst).take k).countP (fun i => decide (pEq P ≤ i)), ?_, ?_⟩
  · exact countP_take_lt _ _ _ _ hmap hpa
  · unfold wsOf
    rw [eraseIdx_map, filter_eraseIdx_of_get _ _ _ _ hmap hpa]

theorem wsOf_single_nil (P : Problem) (i : Nat) (q : ℚ) (hi : i < pEq P) :
    wsOf P [(i, q)] = [] := by
  simp [wsOf, List.filter_cons]
  omega

theorem processAdd_ws (P : Problem) (eps : ℚ) (s : QPState) (j : Nat)
    (lj : ℚ) (s' : QPState) (hj : pEq P ≤ j)
    (hinv : wsCount P s + pEq P ≤ nVars P)
    (h : processAdd P eps s j lj = Sum.inl s') :
    stateInv P s' ∧
    ((∃ j', pEq P ≤ j' ∧ workingSet P s' = workingSet P s ++ [j']) ∨
     (∃ k : Fin (workingSet P s).length,
        workingSet P s' = (workingSet P s).eraseIdx k.val)) := by
  have hinv' : (workingSet P s).length + pEq P ≤ nVars P := hinv
  rcases processAdd_inl_cases P eps s j lj s' h with
    ⟨z, w, t, hlt, hs⟩ | ⟨z, w, kt, a, hget, hpa, hs⟩
  · have hlt' : (workingSet P s).length + pEq P < nVars P := hlt
    have hws : workingSet P s' = workingSet P s ++ [j] := by
      subst hs
      show wsOf P (updMult t s.act w ++ [(j, lj + t)]) = _
      rw [wsOf_append, wsOf_updMult, wsOf_single P j _ hj]
      rfl
    refine ⟨⟨?_, ?_⟩, Or.inl ⟨j, hj, hws⟩⟩
    · show (workingSet P s').length + pEq P ≤ nVars P
      rw [hws, List.length_append, List.length_singleton]
      omega
    · subst hs; rfl
  · obtain ⟨q, hget'⟩ := updMult_get kt.2 s.act w kt.1 a hget
    obtain ⟨kv, hkvlt, hk'⟩ :=
      wsOf_eraseIdx P (updMult kt.2 s.act w) kt.1 (a.1, q) hget' hpa
    have hup : wsOf P (updMult kt.2 s.act w) = workingSet P s := by
      rw [wsOf_updMult]; rfl
    rw [hup] at hkvlt hk'
    have hws : workingSet P s' = (workingSet P s).eraseIdx kv := by
      subst hs
      show wsOf P ((updMult kt.2 s.act w).eraseIdx kt.1) = _
      exact hk'
    refine ⟨⟨?_, ?_⟩, Or.inr ⟨⟨kv, hkvlt⟩, hws⟩⟩
    · show (workingSet P s').length + pEq P ≤ nVars P
      rw [hws, List.length_eraseIdx]
      split <;> omega
    · subst hs
      simp [pendingOKb, hj]

theorem addEqRow_ws (P : Problem) (eps : ℚ) (s : QPState) (i : Nat)
    (s' : QPState) (hi : i < pEq P) (hpend : s.pending = none)
    (h : addEqRow P eps s i = Sum.inl s') :
    wsOf P s'.act = wsOf P s.act ∧ s'.pending = none := by
  simp only [addEqRow] at h
  repeat' split at h
  all_goals cases h
  · exact ⟨rfl, hpend⟩
  · constructor
    · show wsOf P (updMult _ s.act _ ++ [(i, _)]) = _
      rw [wsOf_append, wsOf_updMult, wsOf_single_nil P i _ hi, List.append_nil]
    · rfl

theorem initEqs_ws (P : Problem) (eps : ℚ) :
    ∀ (rows : List Nat) (s s' : QPState), (∀ i ∈ rows, i < pEq P) →
      s.pending = none → initEqs P eps rows s = Sum.inl s' →
      wsOf P s'.act = wsOf P s.act ∧ s'.pending = none := by
  intro rows
  induction rows with
  | nil =>
    intro s s' _ hpend h
    injection h with h
    subst h
    exact ⟨rfl, hpend⟩
  | cons i rest ih =>
    intro s s' hmem hpend h
    simp only [initEqs] at h
    split at h
    · rename_i s0 hs0
      have h1 := addEqRow_ws P eps s i s0 (hmem i (List.mem_cons_self i rest)) hpend hs0
      have h2 := ih s0 s' (fun i' hi' => hmem i' (List.mem_cons_of_mem _ hi')) h1.2 h
      exact ⟨h2.1.trans h1.1, h2.2⟩
    · cases h

/-- Claim C8: the working set satisfies |W| + p ≤ n in every reachable
solver state — the invariant (together with the pending-row condition
that makes it inductive) holds when the active-set loop starts and is
preserved by every step — and every continuing iteration step changes
the working set by exactly one index: one appended or one removed. -/
theorem working_set_invariant :
    (∀ (P : Problem) (eps : ℚ) (s s' : QPState),
      stateInv P s → step P eps s = Sum.inl s' →
      stateInv P s' ∧
      ((∃ j, pEq P ≤ j ∧ workingSet P s' = workingSet P s ++ [j]) ∨
       (∃ k : Fin (workingSet P s).length,
          workingSet P s' = (workingSet P s).eraseIdx k.val))) ∧
    (∀ (P : Problem) (eps : ℚ) (x0 : Vec) (s : QPState),
      pEq P ≤ nVars P →
      initEqs P eps (List.range (pEq P)) ⟨x0, [], none, 0⟩ = Sum.inl s →
      stateInv P s) := by
  constructor
  · intro P eps s s' hinv hstep
    rcases step_inl_cases P eps s s' hstep with
      ⟨jl, hpend, hpa⟩ | ⟨hpend, k, a, hneg, hget, hpa1, hs⟩ | ⟨hpend, j, hch, hpa⟩
    · have hj : pEq P ≤ jl.1 := by
        have h2 := hinv.2
        simp [pendingOKb, hpend] at h2
        exact h2
      exact processAdd_ws P eps s jl.1 jl.2 s' hj hinv.1 hpa
    · obtain ⟨kv, hkvlt, hk'⟩ := wsOf_eraseIdx P s.act k a hget hpa1
      have hws : workingSet P s' = (workingSet P s).eraseIdx kv := by
        subst hs
        exact hk'
      have hinv1 : (workingSet P s).length + pEq P ≤ nVars P := hinv.1
      refine ⟨⟨?_, by subst hs; rfl⟩, Or.inr ⟨⟨kv, hkvlt⟩, hws⟩⟩
      show (workingSet P s').length + pEq P ≤ nVars P
      rw [hws, List.length_eraseIdx]
      split <;> omega
    · exact processAdd_ws P eps s j 0 s' (chooseAdd_some P eps s j hch) hinv.1 hpa
  · intro P eps x0 s hp h
    have := initEqs_ws P eps (List.range (pEq P)) ⟨x0, [], none, 0⟩ s
      (fun i hi => List.mem_range.mp hi) rfl h
    constructor
    · show (wsOf P s.act).length + pEq P ≤ nVars P
      rw [this.1]
      show (wsOf P []).length + pEq P ≤ nVars P
      simpa [wsOf] using hp
    · simp [pendingOKb, this.2]

/-- Witness for C8: a concrete step on reference example 2 from the
initial loop state adds exactly one index to the empty working set and
preserves the invariant. -/
theorem working_set_invariant_witness :
    stateInv ⟨[[6,2],[2,2]], [1,6], [[-2,-3],[-1,0],[0,-1]], [-4,0,0], [], []⟩
      ⟨[5/4, -17/4], [], none, 0⟩ ∧
    step ⟨[[6,2],[2,2]], [1,6], [[-2,-3],[-1,0],[0,-1]], [-4,0,0], [], []⟩
      (1/100000000) ⟨[5/4, -17/4], [], none, 0⟩ =
      Sum.inl ⟨[1/2, 1], [(0, 3)], none, 1⟩ ∧
    (stateInv ⟨[[6,2],[2,2]], [1,6], [[-2,-3],[-1,0],[0,-1]], [-4,0,0], [], []⟩
      ⟨[1/2, 1], [(0, 3)], none, 1⟩ ∧
     ((∃ j, pEq ⟨[[6,2],[2,2]], [1,6], [[-2,-3],[-1,0],[0,-1]], [-4,0,0], [], []⟩ ≤ j ∧
        workingSet ⟨[[6,2],[2,2]], [1,6], [[-2,-3],[-1,0],[0,-1]], [-4,0,0], [], []⟩
          ⟨[1/2, 1], [(0, 3)], none, 1⟩ =
        workingSet ⟨[[6,2],[2,2]], [1,6], [[-2,-3],[-1,0],[0,-1]], [-4,0,0], [], []⟩
          ⟨[5/4, -17/4], [], none, 0⟩ ++ [j]) ∨
      (∃ k : Fin (workingSet ⟨[[6,2],[2,2]], [1,6], [[-2,-3],[-1,0],[0,-1]], [-4,0,0], [], []⟩
          ⟨[5/4, -17/4], [], none, 0⟩).length,
        workingSet ⟨[[6,2],[2,2]], [1,6], [[-2,-3],[-1,0],[0,-1]], [-4,0,0], [], []⟩
          ⟨[1/2, 1], [(0, 3)], none, 1⟩ =
        (workingSet ⟨[[6,2],[2,2]], [1,6], [[-2,-3],[-1,0],[0,-1]], [-4,0,0], [], []⟩
          ⟨[5/4, -17/4], [], none, 0⟩).eraseIdx k.val))) :=
  ⟨⟨by decide, by decide⟩, by decide,
    working_set_invariant.1 _ (1/100000000) _ _ ⟨by decide, by decide⟩ (by decide)⟩

theorem lookupMult_cases : ∀ (l : List (Nat × ℚ)) (i : Nat),
    lookupMult i l = 0 ∨ (i, lookupMult i l) ∈ l := by
  intro l
  induction l with
  | nil => intro i; exact Or.inl rfl
  | cons e rest ih =>
    intro i
    simp only [lookupMult]
    split
    · rename_i he
      refine Or.inr ?_
      rw [← he, Prod.mk.eta]
      exact List.mem_cons_self _ _
    · rcases ih i with h0 | hm
      · exact Or.inl h0
      · exact Or.inr (List.mem_cons_of_mem _ hm)

theorem pickMinBy_eq_none : ∀ (l : List (Nat × ℚ)), pickMinBy l = none → l = [] := by
  intro l h
  cases l with
  | nil => rfl
  | cons a t =>
    simp only [pickMinBy] at h
    repeat' split at h
    all_goals cases h

theorem negMultPos_none (P : Problem) (eps : ℚ) (s : QPState)
    (hn : negMultPos P eps s = none) :
    ∀ (k : Nat) (a : Nat × ℚ), s.act.get? k = some a → pEq P ≤ a.1 →
      -eps ≤ a.2 := by
  intro k a hget hpa
  simp only [negMultPos] at hn
  split at hn
  · cases hn
  · rename_i heq
    have hnil := pickMinBy_eq_none _ heq
    have hall := List.filterMap_eq_nil.mp hnil
    have hklt : k < s.act.length := (List.get?_eq_some.mp hget).1
    have hfk := hall k (List.mem_range.mpr hklt)
    rw [hget] at hfk
    simp only at hfk
    split at hfk
    · cases hfk
    · rename_i hcond
      exact le_of_not_lt (fun h2 => hcond ⟨hpa, h2⟩)

theorem runLoop_optimal (P : Problem) (eps : ℚ) :
    ∀ (fuel : Nat) (s : QPState) (r : Result), runLoop P eps fuel s = r →
      r.status = .Optimal →
      ∃ s', r = optimalResult P s' ∧ violatedIneqs P eps s' = [] ∧
        eqFeasible P eps s'.x = true ∧ negMultPos P eps s' = none := by
  intro fuel
  induction fuel with
  | zero =>
    intro s r hr hst
    unfold runLoop at hr
    split at hr
    · rename_i r0 hstep
      subst hr
      rcases step_inr_cases P eps s r0 hstep with hfail | ⟨hopt, h1, h2, h3⟩
      · subst hfail; simp [failResult] at hst
      · exact ⟨s, hopt, h1, h2, h3⟩
    · subst hr; simp [failResult] at hst
  | succ n ih =>
    intro s r hr hst
    unfold runLoop at hr
    split at hr
    · rename_i r0 hstep
      subst hr
      rcases step_inr_cases P eps s r0 hstep with hfail | ⟨hopt, h1, h2, h3⟩
      · subst hfail; simp [failResult] at hst
      · exact ⟨s, hopt, h1, h2, h3⟩
    · rename_i s' hstep
      exact ih s' r hr hst

theorem initEqs_inr_status (P : Problem) (eps : ℚ) :
    ∀ (rows : List Nat) (s : QPState) (r : Result),
      initEqs P eps rows s = Sum.inr r → r.status = .Infeasible := by
  intro rows
  induction rows with
  | nil => intro s r h; cases h
  | cons i rest ih =>
    intro s r h
    simp only [initEqs] at h
    split at h
    · exact ih _ _ h
    · rename_i r0 hr0
      injection h with h
      subst h
      rw [addEqRow_inr_iter P eps s i r0 hr0]
      rfl

theorem violTerm_ineq_row (P : Problem) (x : Vec) (i : Nat)
    (hbv : P.bv.length = pEq P) :
    violTerm P x (pEq P + i) = dot (P.G.getD i []) x - P.h.getD i 0 := by
  simp only [violTerm, rowsC, rhsD]
  rw [List.getD_append_right P.A P.G [] (pEq P + i) (Nat.le_add_right _ _)]
  rw [List.getD_append_right P.bv P.h 0 (pEq P + i)
    (by rw [hbv]; exact Nat.le_add_right _ _)]
  have e1 : pEq P + i - P.A.length = i := by
    show pEq P + i - pEq P = i
    omega
  have e2 : pEq P + i - P.bv.length = i := by
    rw [hbv]
    omega
  rw [e1, e2]

theorem violTerm_eq_row (P : Problem) (x : Vec) (i : Nat) (hi : i < pEq P)
    (hbv : P.bv.length = pEq P) :
    violTerm P x i = dot (P.A.getD i []) x - P.bv.getD i 0 := by
  simp only [violTerm, rowsC, rhsD]
  rw [List.getD_append P.A P.G [] i hi]
  rw [List.getD_append P.bv P.h 0 i (by rw [hbv]; exact hi)]

theorem psd_reference_matrix : PosSemidef [[4, 1], [1, 2]] := by
  intro v
  cases v with
  | nil => simp [dot, matVec]
  | cons a t =>
    cases t with
    | nil =>
      show (0:ℚ) ≤ dot [a] (matVec [[4, 1], [1, 2]] [a])
      simp [dot, matVec]
      nlinarith [sq_nonneg a]
    | cons b rest =>
      show (0:ℚ) ≤ dot (a :: b :: rest) (matVec [[4, 1], [1, 2]] (a :: b :: rest))
      simp [dot, matVec]
      nlinarith [sq_nonneg (a + b), sq_nonneg a, sq_nonneg b]

/-- Claim C1: for a convex (positive semi-definite Q) problem with a
non-empty feasible region, an x* returned by solve with status Optimal
satisfies Gx* ≤ h + ε componentwise, Ax* = b within ±ε componentwise,
and every inequality multiplier (in particular every active one) is
≥ −ε, where ε is the default tolerance 1e-8. -/
theorem kkt_conditions_at_optimal (Q : Mat) (pv : Vec) (G : Mat) (h : Vec)
    (A : Mat) (bv : Vec) (r : Result) (x : Vec)
    (hpsd : PosSemidef Q)
    (hfeas : ∃ y, feasiblePoint ⟨Q, pv, G, h, A, bv⟩ y)
    (hok : solve Q pv G h A bv = Except.ok r)
    (hst : r.status = .Optimal)
    (hx : r.xstar = some x) :
    (∀ i, i < G.length → dot (G.getD i []) x ≤ h.getD i 0 + 1 / 100000000) ∧
    (∀ i, i < A.length → |dot (A.getD i []) x - bv.getD i 0| ≤ 1 / 100000000) ∧
    (∀ q ∈ r.lamMult, -(1 / 100000000) ≤ q) := by
  clear hpsd hfeas
  simp only [solve, solveQP] at hok
  split at hok
  · rename_i hwf
    injection hok with hok
    have hbv : bv.length = A.length := by
      simp only [wellFormed, Bool.and_eq_true, decide_eq_true_eq,
        List.all_eq_true] at hwf
      exact hwf.2
    unfold solveWith at hok
    split at hok
    · rw [← hok] at hst
      simp [failResult] at hst
    · split at hok
      · rename_i r0 hr0
        rw [← hok] at hst
        rw [initEqs_inr_status _ _ _ _ _ hr0] at hst
        cases hst
      · rename_i s0 hs0
        obtain ⟨s', hropt, hviol, hfeasq, hneg⟩ :=
          runLoop_optimal _ _ _ _ _ hok hst
        have hx' : s'.x = x := by
          rw [hropt] at hx
          simp only [optimalResult, Option.some.injEq] at hx
          exact hx
        refine ⟨?_, ?_, ?_⟩
        · intro i hi
          have hfi := List.filterMap_eq_nil.mp hviol i (List.mem_range.mpr hi)
          have hle : ¬ ((defaultOptions ⟨Q, pv, G, h, A, bv⟩).tol <
              violTerm ⟨Q, pv, G, h, A, bv⟩ s'.x
                (pEq ⟨Q, pv, G, h, A, bv⟩ + i)) := by
            intro hlt
            rw [if_pos hlt] at hfi
            cases hfi
          have hle' := le_of_not_lt hle
          rw [violTerm_ineq_row _ _ _ hbv, hx'] at hle'
          have htol : (defaultOptions ⟨Q, pv, G, h, A, bv⟩).tol
              = 1 / 100000000 := rfl
          rw [htol] at hle'
          show dot (G.getD i []) x ≤ h.getD i 0 + 1 / 100000000
          linarith
        · intro i hi
          have hfi := List.all_eq_true.mp hfeasq i (List.mem_range.mpr hi)
          rw [decide_eq_true_eq] at hfi
          obtain ⟨hl, hr2⟩ := hfi
          rw [violTerm_eq_row ⟨Q, pv, G, h, A, bv⟩ s'.x i hi hbv, hx'] at hl hr2
          have htol : (defaultOptions ⟨Q, pv, G, h, A, bv⟩).tol
              = 1 / 100000000 := rfl
          rw [htol] at hl hr2
          exact abs_le.mpr ⟨by linarith, hr2⟩
        · intro q hq
          rw [hropt] at hq
          simp only [optimalResult, List.mem_map, List.mem_range] at hq
          obtain ⟨i, hi, hqi⟩ := hq
          rcases lookupMult_cases s'.act (pEq ⟨Q, pv, G, h, A, bv⟩ + i) with
            h0 | hmem
          · rw [hqi] at h0
            rw [h0]
            norm_num
          · rw [hqi] at hmem
            obtain ⟨k, hk⟩ := List.mem_iff_get?.mp hmem
            have := negMultPos_none _ _ _ hneg k _ hk (Nat.le_add_right _ _)
            exact this
  · cases hok

/-- Witness for C1: reference example 1 is convex and feasible, solve
returns Optimal there, and the KKT feasibility and multiplier bounds
hold at its x* = [1/4, 3/4]. -/
theorem kkt_conditions_at_optimal_witness :
    PosSemidef [[4, 1], [1, 2]] ∧
    (∃ y, feasiblePoint ⟨[[4,1],[1,2]], [1,1], [[-1,0],[0,-1]], [0,0],
      [[1,1]], [1]⟩ y) ∧
    ((∀ i, i < ([[-1,0],[0,-1]] : Mat).length →
        dot (([[-1,0],[0,-1]] : Mat).getD i []) [1/4, 3/4] ≤
          ([0,0] : Vec).getD i 0 + 1 / 100000000) ∧
     (∀ i, i < ([[1,1]] : Mat).length →
        |dot (([[1,1]] : Mat).getD i []) [1/4, 3/4] -
          ([1] : Vec).getD i 0| ≤ 1 / 100000000) ∧
     (∀ q ∈ ({ status := .Optimal, xstar := some [1/4, 3/4],
                objective := some (15/8), lamMult := [0, 0],
                nuMult := [-11/4], iterations := 0 } : Result).lamMult,
        -(1 / 100000000) ≤ q)) :=
  ⟨psd_reference_matrix, ⟨[1/4, 3/4], by decide⟩,
    kkt_conditions_at_optimal [[4,1],[1,2]] [1,1] [[-1,0],[0,-1]] [0,0]
      [[1,1]] [1] _ _ psd_reference_matrix ⟨[1/4, 3/4], by decide⟩
      (by decide) (by decide) (by decide)⟩

end QP
